import Mathlib

set_option allowUnsafeReducibility true
attribute [semireducible] Rat.add Rat.mul Rat.inv Rat.sub Rat.div Rat.ofScientific

/-!
# Verification of the Optimal Binary Search Tree core (`src/binary_tree.cpp`)

Shallow embedding of the two components of the repository's OBST core:

* `optimalBST` (the Table Builder): fills the cost table `e`, the weight
  table `w` and the root table `root` bottom-up by interval length, following
  OPTIMAL-BST of Cormen 15.5.
* `printOptimalStructure` (the Structure Reporter): recursively walks the
  `root` table and emits one structural fact per key / gap.

Modelling conventions:

* C++ `double` is modelled as `ℚ` (exact arithmetic; the algorithm only adds
  and compares probabilities).
* `std::numeric_limits<double>::max()` is used by the code purely as a
  sentinel that the first candidate cost `r = i` always beats (the inner
  `for (r = i; r <= j; ++r)` loop always runs at least once, since `i ≤ j`
  in the enclosing loop, and its first comparison `cost < DBL_MAX` succeeds).
  The embedding therefore starts the scan's accumulator at the first
  candidate `r = i` instead of materialising the sentinel.
* `std::vector` indices are `ℕ`; the tables, `resize`d to `(n+2) × (n+2)`
  and value-initialised to `0.0` / `0`, are total functions `ℕ → ℕ → _`
  initialised to `0`.  A separate fallible embedding `optimalBSTChecked`
  models every `p` / `q` vector access as a bounds-checked `List.get?`,
  to settle the input-validation claim.
-/

/-- Pointwise update of a two-argument table, modelling `t[i][j] = v`. -/
def upd {α : Type} (f : ℕ → ℕ → α) (i j : ℕ) (v : α) : ℕ → ℕ → α :=
  fun a b => if a = i ∧ b = j then v else f a b

/-- The three DP tables of `optimalBST`: cost `e`, weight `w`, root index
`root`, all value-initialised to `0` as C++ `resize` does. -/
structure Tables where
  e : ℕ → ℕ → ℚ
  w : ℕ → ℕ → ℚ
  root : ℕ → ℕ → ℕ

/-- Fresh tables after `resize`: every cell is `0.0` / `0`. -/
def Tables.init : Tables := ⟨fun _ _ => 0, fun _ _ => 0, fun _ _ => 0⟩

/-- The inner `for (r = i; r <= j; ++r)` minimisation of `optimalBST`:
running pair (best cost, best root), updated only on a strict `<`.
The accumulator starts at the first candidate `r = i`, which in the source
always replaces the `DBL_MAX` sentinel on the loop's first iteration. -/
def innerScan (e2 : ℕ → ℕ → ℚ) (wij : ℚ) (i j : ℕ) : ℚ × ℕ :=
  (List.range' (i + 1) (j - i)).foldl
    (fun s r =>
      let cost := e2 i (r - 1) + e2 (r + 1) j + wij
      if cost < s.1 then (cost, r) else s)
    (e2 i (i - 1) + e2 (i + 1) j + wij, i)

/-- One iteration of `optimalBST`'s middle loop body for subinterval `[i,j]`:
`w[i][j] = w[i][j-1] + p[j] + q[j]`, then the `r`-scan fills `e[i][j]` and
`root[i][j]`. -/
def cellUpdate (p q : ℕ → ℚ) (t : Tables) (i j : ℕ) : Tables :=
  let wij := t.w i (j - 1) + p j + q j
  let s := innerScan t.e wij i j
  ⟨upd t.e i j s.1, upd t.w i j wij, upd t.root i j s.2⟩

/-- The base-case loop of `optimalBST`:
`for (i = 1; i <= n+1; ++i) { e[i][i-1] = q[i-1]; w[i][i-1] = q[i-1]; }`. -/
def baseFill (q : ℕ → ℚ) (n : ℕ) : Tables :=
  (List.range' 1 (n + 1)).foldl
    (fun t i =>
      ⟨upd t.e i (i - 1) (q (i - 1)), upd t.w i (i - 1) (q (i - 1)), t.root⟩)
    Tables.init

/-- The middle loop of `optimalBST` for one interval length `l`:
`for (i = 1; i <= n - l + 1; ++i)` with `j = i + l - 1`. -/
def lenStep (p q : ℕ → ℚ) (n l : ℕ) (t : Tables) : Tables :=
  (List.range' 1 (n + 1 - l)).foldl (fun t i => cellUpdate p q t i (i + l - 1)) t

/-- The Table Builder `optimalBST`: base cases, then lengths `l = 1..n`. -/
def optimalBST (p q : ℕ → ℚ) (n : ℕ) : Tables :=
  (List.range' 1 n).foldl (fun t l => lenStep p q n l t) (baseFill q n)

/-! ## The Structure Reporter (`printOptimalStructure`) -/

/-- Which child of the parent a reported node is (`is_left_child`). -/
inductive Side where
  | left : Side
  | right : Side
deriving DecidableEq, Repr

/-- One structural fact emitted by `printOptimalStructure`: one `cout` line.
`rootF r` is the parentless line "keys[r] e a raiz da arvore."; `child` and
`gap` carry the parent key index `parent_r` the line references. -/
inductive SFact where
  | rootF : ℕ → SFact
  | child : ℕ → ℕ → Side → SFact
  | gap : ℕ → ℕ → Side → SFact
deriving DecidableEq, Repr

/-- The `is_left_child` flag as a `Side`. -/
def sideOf (isLeft : Bool) : Side := if isLeft then Side.left else Side.right

/-- `printOptimalStructure(root, keys, dummies, i, j, parent_r, is_left_child)`
as the list of emitted facts, in emission order (pre-order).  The C++
recursion terminates because the filled `root` table satisfies
`i ≤ root[i][j] ≤ j`; the embedding takes explicit fuel (one unit per call)
to stay total on arbitrary tables, and the theorems below show any fuel
`≥ j + 2 - i` is enough when that invariant holds.  Indices are `ℕ`: within
the verified scope every index the C++ code forms is non-negative. -/
def printOptimalStructure (rt : ℕ → ℕ → ℕ) :
    ℕ → ℕ → ℕ → ℕ → Bool → List SFact
  | 0, _, _, _, _ => []
  | f + 1, i, j, parent, isLeft =>
    if j < i then
      if j + 1 = i then [SFact.gap j parent (sideOf isLeft)] else []
    else
      let r := rt i j
      (if parent = 0 then SFact.rootF r else SFact.child r parent (sideOf isLeft)) ::
        (printOptimalStructure rt f i (r - 1) r true ++
          printOptimalStructure rt f (r + 1) j r false)

/-- The text of the `side` variable in the source. -/
def sideText : Side → String
  | Side.left => "filho esquerdo"
  | Side.right => "filho direito"

/-- The exact `cout` line each fact produces, given the key and dummy label
vectors.  The gap line always interpolates `keys[parent_r]`, even when
`parent_r` is the no-parent marker `0`. -/
def renderFact (keys dummies : ℕ → String) : SFact → String
  | SFact.rootF r => keys r ++ " e a raiz da arvore."
  | SFact.child r parent s =>
      keys r ++ " e o " ++ sideText s ++ " de " ++ keys parent
  | SFact.gap g parent s =>
      "\t" ++ dummies g ++ " e o " ++ sideText s ++ " de " ++ keys parent

/-! ## Fallible embedding: every vector access bounds-checked

`optimalBST` receives `std::vector`s and performs no validation; the only
way it can fail is an out-of-bounds access (undefined behaviour in C++,
`none` here).  This embedding makes each `p` / `q` read a `List.get?`. -/

/-- `optimalBST` over genuine finite vectors, with every probability-vector
access bounds-checked: `none` models an out-of-bounds read.  There is no
validation step of any kind in the source; the computation simply runs. -/
def optimalBSTChecked (p q : List ℚ) (n : ℕ) : Option Tables := do
  let t1 ← (List.range' 1 (n + 1)).foldlM
    (fun (t : Tables) i => do
      let qi ← q.get? (i - 1)
      pure (⟨upd t.e i (i - 1) qi, upd t.w i (i - 1) qi, t.root⟩ : Tables))
    Tables.init
  (List.range' 1 n).foldlM
    (fun t l =>
      (List.range' 1 (n + 1 - l)).foldlM
        (fun (t : Tables) i => do
          let j := i + l - 1
          let pj ← p.get? j
          let qj ← q.get? j
          let wij := t.w i (j - 1) + pj + qj
          let s := innerScan t.e wij i j
          pure (⟨upd t.e i j s.1, upd t.w i j wij, upd t.root i j s.2⟩ : Tables))
        t)
    t1

/-! ## Specification-side definitions -/

/-- Cost of splitting interval `[i,j]` at root `r`, read off the tables:
`e[i][r-1] + e[r+1][j] + w[i][j]` (the body of the inner scan). -/
def splitCost (t : Tables) (i j r : ℕ) : ℚ :=
  t.e i (r - 1) + t.e (r + 1) j + t.w i j

/-- `sum(p[i..j]) + sum(q[i-1..j])`: the closed form the weight table must
equal. -/
def wSpec (p q : ℕ → ℚ) (i j : ℕ) : ℚ :=
  ((List.range' i (j + 1 - i)).map p).sum +
    ((List.range' (i - 1) (j + 2 - i)).map q).sum

/-- A binary search tree shape over an interval of real keys: a `gapLeaf g`
is the dummy key `d_g`; a `node r l rr` has real key `k_r` at the root. -/
inductive OTree where
  | gapLeaf : ℕ → OTree
  | node : ℕ → OTree → OTree → OTree
deriving DecidableEq, Repr

/-- `validT i j t`: `t` is a BST shape on exactly the keys of `[i,j]` (with
the `n+1` bounding/internal gaps as leaves): the empty interval `[i, i-1]`
is the single gap leaf `d_{i-1}`, and a node's key splits the interval. -/
def validT : ℕ → ℕ → OTree → Bool
  | i, j, OTree.gapLeaf g => j + 1 = i && g = j
  | i, j, OTree.node r l rr =>
      i ≤ r && r ≤ j && validT i (r - 1) l && validT (r + 1) j rr

/-- `sum(depth(key)*p) + sum(depth(gap)*q)` over a tree whose root sits at
depth `d`. -/
def costD (p q : ℕ → ℚ) (d : ℕ) : OTree → ℚ
  | OTree.gapLeaf g => d * q g
  | OTree.node r l rr => d * p r + costD p q (d + 1) l + costD p q (d + 1) rr

/-- Expected search cost of a tree, the root contributing 1 comparison. -/
def treeCost (p q : ℕ → ℚ) (t : OTree) : ℚ := costD p q 1 t

/-- Total probability mass carried by a tree. -/
def massOf (p q : ℕ → ℚ) : OTree → ℚ
  | OTree.gapLeaf g => q g
  | OTree.node r l rr => p r + massOf p q l + massOf p q rr

/-- The key indices of a fact list, in emission order (root and child facts
only). -/
def keyIndexList : List SFact → List ℕ
  | [] => []
  | SFact.rootF r :: rest => r :: keyIndexList rest
  | SFact.child r _ _ :: rest => r :: keyIndexList rest
  | SFact.gap _ _ _ :: rest => keyIndexList rest

/-- The gap indices of a fact list, in emission order. -/
def gapIndexList : List SFact → List ℕ
  | [] => []
  | SFact.rootF _ :: rest => gapIndexList rest
  | SFact.child _ _ _ :: rest => gapIndexList rest
  | SFact.gap g _ _ :: rest => g :: gapIndexList rest

/-- `parentsOk facts seen`: every child / gap fact names as parent a key
already reported (a member of `seen`, which accumulates reported keys);
pre-order emission makes this hold with `seen = []`. -/
def parentsOk : List SFact → List ℕ → Bool
  | [], _ => true
  | SFact.rootF r :: rest, seen => parentsOk rest (r :: seen)
  | SFact.child r parent _ :: rest, seen =>
      decide (parent ∈ seen) && parentsOk rest (r :: seen)
  | SFact.gap _ parent _ :: rest, seen =>
      decide (parent ∈ seen) && parentsOk rest seen

/-- Whether a fact is the parentless root line. -/
def isRootFact : SFact → Bool
  | SFact.rootF _ => true
  | _ => false

/-- The Structure Reporter on the whole tree, as `main` calls it:
`printOptimalStructure(root, keys, dummies, 1, n, 0, false)`, with enough
fuel for the recursion. -/
def reportStructure (rt : ℕ → ℕ → ℕ) (n : ℕ) : List SFact :=
  printOptimalStructure rt (n + 2) 1 n 0 false

/-- The base-case loop of `optimalBST` truncated after its first `m`
iterations (`baseFillUpTo q (n + 1) = baseFill q n`). -/
def baseFillUpTo (q : ℕ → ℚ) (m : ℕ) : Tables :=
  (List.range' 1 m).foldl
    (fun t i =>
      ⟨upd t.e i (i - 1) (q (i - 1)), upd t.w i (i - 1) (q (i - 1)), t.root⟩)
    Tables.init

/-- The middle loop of `optimalBST` truncated after its first `m` iterations
(`rowFold p q l t (n + 1 - l) = lenStep p q n l t`): used to state the loop
invariant of the `i`-loop. -/
def rowFold (p q : ℕ → ℚ) (l : ℕ) (t : Tables) (m : ℕ) : Tables :=
  (List.range' 1 m).foldl (fun t i => cellUpdate p q t i (i + l - 1)) t

/-- The outer loop of `optimalBST` truncated after interval lengths
`1..L` (`buildUpTo p q n n = optimalBST p q n`): used to state the loop
invariant of the `l`-loop. -/
def buildUpTo (p q : ℕ → ℚ) (n L : ℕ) : Tables :=
  (List.range' 1 L).foldl (fun t l => lenStep p q n l t) (baseFill q n)

/-- The body of the inner scan, abstracted over the candidate-cost function:
`if (cost < e[i][j]) { e[i][j] = cost; root[i][j] = r; }` on a running pair.
`innerScan` is definitionally a `foldl` of `minFold`. -/
def minFold (c : ℕ → ℚ) (s : ℚ × ℕ) (r : ℕ) : ℚ × ℕ :=
  if c r < s.1 then (c r, r) else s

/-- Key probabilities of the classical 5-key example in `main`
(index 0 unused). -/
def p5 : ℕ → ℚ := fun k => [0, 0.15, 0.10, 0.05, 0.10, 0.20].getD k 0

/-- Gap probabilities of the classical 5-key example in `main`. -/
def q5 : ℕ → ℚ := fun k => [0.05, 0.10, 0.05, 0.05, 0.05, 0.10].getD k 0

/-! ## Theorems -/

theorem string_glue (x k : String) :
    x ++ " e o " ++ "filho direito" ++ " de " ++ k =
      x ++ " e o filho direito de " ++ k := by
  rw [String.append_assoc (x ++ " e o ") "filho direito" " de ",
    String.append_assoc x " e o " ("filho direito" ++ " de ")]
  rfl

/-- C7: on the classical 5-key reference inputs of `main`
(`p = [_,0.15,0.10,0.05,0.10,0.20]`, `q = [0.05,0.10,0.05,0.05,0.05,0.10]`,
`n = 5`), `optimalBST` yields `e[1][5] = 2.75` and `root[1][5] = 2`, and the
structure report has key 2 as tree root, key 1 as its left child, key 5 as
its right child, key 4 as left child of key 5 and key 3 as left child of
key 4 (the full emitted fact sequence is computed below). -/
theorem obst_reference_example :
    (optimalBST p5 q5 5).e 1 5 = 2.75 ∧
    (optimalBST p5 q5 5).root 1 5 = 2 ∧
    reportStructure (optimalBST p5 q5 5).root 5 =
      [SFact.rootF 2,
       SFact.child 1 2 Side.left,
       SFact.gap 0 1 Side.left,
       SFact.gap 1 1 Side.right,
       SFact.child 5 2 Side.right,
       SFact.child 4 5 Side.left,
       SFact.child 3 4 Side.left,
       SFact.gap 2 3 Side.left,
       SFact.gap 3 3 Side.right,
       SFact.gap 4 4 Side.right,
       SFact.gap 5 5 Side.right] :=
  ⟨by decide, by decide, by decide⟩

/-- C8: the degenerate input `n = 0` with `q = [1.0]` is accepted (every
access in bounds, no failure), `e[1][0] = 1.0`, and the structure report
over `[1,0]` emits no key fact and exactly the one gap fact for gap 0. -/
theorem obst_boundary_n_zero :
    (optimalBSTChecked [0] [1] 0).isSome = true ∧
    (optimalBST (fun _ => 0) (fun k => [(1 : ℚ)].getD k 0) 0).e 1 0 = 1 ∧
    reportStructure (optimalBST (fun _ => 0) (fun k => [(1 : ℚ)].getD k 0) 0).root 0 =
      [SFact.gap 0 0 Side.right] ∧
    keyIndexList (reportStructure
      (optimalBST (fun _ => 0) (fun k => [(1 : ℚ)].getD k 0) 0).root 0) = [] ∧
    gapIndexList (reportStructure
      (optimalBST (fun _ => 0) (fun k => [(1 : ℚ)].getD k 0) 0).root 0) = [0] :=
  ⟨by decide, by decide, by decide, by decide, by decide⟩

/-- C10: calling the reporter on the empty interval `[1, 0]` with the
no-parent marker `0` (the whole-tree call when `n = 0`) still emits a gap
fact that names a parent — parent index `0`, as a right child — and its
rendered line interpolates the key label `keys[0]`: the parentless case is
special-cased only for key nodes, never for gap leaves. -/
theorem report_empty_gap_names_key_zero (rt : ℕ → ℕ → ℕ)
    (keys dummies : ℕ → String) :
    reportStructure rt 0 = [SFact.gap 0 0 Side.right] ∧
    renderFact keys dummies (SFact.gap 0 0 Side.right) =
      "\t" ++ dummies 0 ++ " e o filho direito de " ++ keys 0 := by
  refine ⟨rfl, ?_⟩
  show "\t" ++ dummies 0 ++ " e o " ++ "filho direito" ++ " de " ++ keys 0 = _
  rw [string_glue ("\t" ++ dummies 0) (keys 0)]

theorem range'_one_concat (s n : ℕ) :
    List.range' s (n + 1) = List.range' s n ++ [s + n] := by
  have h : List.range' s (n + 1) 1 = List.range' s n 1 ++ [s + 1 * n] :=
    List.range'_concat s n
  simpa using h

theorem mem_range'_iff {s n m : ℕ} : m ∈ List.range' s n ↔ s ≤ m ∧ m < s + n := by
  constructor
  · intro h
    rcases List.mem_range'.1 h with ⟨i, hi, rfl⟩
    omega
  · rintro ⟨h1, h2⟩
    exact List.mem_range'.2 ⟨m - s, by omega, by omega⟩

theorem upd_self {α : Type} (f : ℕ → ℕ → α) (i j : ℕ) (v : α) :
    upd f i j v i j = v := by
  simp [upd]

theorem upd_other {α : Type} (f : ℕ → ℕ → α) (i j : ℕ) (v : α) {a b : ℕ}
    (h : ¬(a = i ∧ b = j)) : upd f i j v a b = f a b := by
  simp only [upd, if_neg h]

theorem innerScan_eq_minFold (e2 : ℕ → ℕ → ℚ) (wij : ℚ) (i j : ℕ) :
    innerScan e2 wij i j =
      (List.range' (i + 1) (j - i)).foldl
        (minFold (fun r => e2 i (r - 1) + e2 (r + 1) j + wij))
        ((fun r => e2 i (r - 1) + e2 (r + 1) j + wij) i, i) := rfl

/-- The strict-`<` minimisation fold over `[i .. i+len]` (first element seeds
the accumulator) computes the minimum cost together with the least index
achieving it. -/
theorem minFold_spec (c : ℕ → ℚ) (i : ℕ) : ∀ len : ℕ,
    i ≤ ((List.range' (i + 1) len).foldl (minFold c) (c i, i)).2 ∧
    ((List.range' (i + 1) len).foldl (minFold c) (c i, i)).2 ≤ i + len ∧
    ((List.range' (i + 1) len).foldl (minFold c) (c i, i)).1 =
      c ((List.range' (i + 1) len).foldl (minFold c) (c i, i)).2 ∧
    (∀ r, i ≤ r → r ≤ i + len →
      ((List.range' (i + 1) len).foldl (minFold c) (c i, i)).1 ≤ c r) ∧
    (∀ r, i ≤ r → r ≤ i + len →
      c r = ((List.range' (i + 1) len).foldl (minFold c) (c i, i)).1 →
      ((List.range' (i + 1) len).foldl (minFold c) (c i, i)).2 ≤ r) := by
  intro len
  induction len with
  | zero =>
    refine ⟨le_refl i, Nat.le_refl i, rfl, ?_, ?_⟩
    · intro r h1 h2
      have hri : r = i := by omega
      subst hri
      exact le_refl _
    · intro r h1 h2 _
      show i ≤ r
      exact h1
  | succ m ih =>
    obtain ⟨ih1, ih2, ih3, ih4, ih5⟩ := ih
    rw [range'_one_concat, List.foldl_append]
    set R := (List.range' (i + 1) m).foldl (minFold c) (c i, i) with hR
    have harith : i + 1 + m = i + m + 1 := by omega
    simp only [List.foldl_cons, List.foldl_nil]
    by_cases hlt : c (i + 1 + m) < R.1
    · rw [minFold, if_pos hlt]
      refine ⟨by omega, by omega, by simp, ?_, ?_⟩
      · intro r h1 h2
        rcases Nat.lt_or_ge r (i + m + 1) with hr | hr
        · have := ih4 r h1 (by omega)
          simp only
          linarith
        · have : r = i + 1 + m := by omega
          subst this; simp
      · intro r h1 h2 hc
        simp only at hc
        rcases Nat.lt_or_ge r (i + m + 1) with hr | hr
        · have := ih4 r h1 (by omega)
          rw [hc] at this
          exact absurd hlt (not_lt.2 this)
        · omega
    · rw [minFold, if_neg hlt]
      refine ⟨ih1, by omega, ih3, ?_, ?_⟩
      · intro r h1 h2
        rcases Nat.lt_or_ge r (i + m + 1) with hr | hr
        · exact ih4 r h1 (by omega)
        · have : r = i + 1 + m := by omega
          subst this
          exact not_lt.1 hlt
      · intro r h1 h2 hc
        rcases Nat.lt_or_ge r (i + m + 1) with hr | hr
        · exact ih5 r h1 (by omega) hc
        · omega

/-- Folding `minFold` over the same list with pointwise-equal cost
functions gives the same result. -/
theorem minFold_congr {c1 c2 : ℕ → ℚ} : ∀ (L : List ℕ) (s : ℚ × ℕ),
    (∀ r ∈ L, c1 r = c2 r) →
    L.foldl (minFold c1) s = L.foldl (minFold c2) s := by
  intro L
  induction L with
  | nil => intro s _; rfl
  | cons a L ih =>
    intro s h
    simp only [List.foldl_cons]
    rw [show minFold c1 s a = minFold c2 s a by
      simp [minFold, h a (List.mem_cons_self a L)]]
    exact ih _ (fun r hr => h r (List.mem_cons_of_mem a hr))

theorem cellUpdate_frame (p q : ℕ → ℚ) (t : Tables) (i j : ℕ) {a b : ℕ}
    (h : ¬(a = i ∧ b = j)) :
    (cellUpdate p q t i j).e a b = t.e a b ∧
    (cellUpdate p q t i j).w a b = t.w a b ∧
    (cellUpdate p q t i j).root a b = t.root a b := by
  refine ⟨?_, ?_, ?_⟩ <;> simp [cellUpdate, upd_other _ _ _ _ h]

/-- The inner scan only reads `e` at `(i, r-1)` and `(r+1, j)` for
`r ∈ [i..j]`; tables agreeing there scan identically. -/
theorem innerScan_congr {e1 e2 : ℕ → ℕ → ℚ} (wij : ℚ) {i j : ℕ} (hij : i ≤ j)
    (h : ∀ r, i ≤ r → r ≤ j →
      e1 i (r - 1) = e2 i (r - 1) ∧ e1 (r + 1) j = e2 (r + 1) j) :
    innerScan e1 wij i j = innerScan e2 wij i j := by
  rw [innerScan_eq_minFold, innerScan_eq_minFold]
  have hseed : e1 i (i - 1) + e1 (i + 1) j + wij =
      e2 i (i - 1) + e2 (i + 1) j + wij := by
    obtain ⟨h1, h2⟩ := h i (le_refl i) hij
    rw [h1, h2]
  rw [show ((fun r => e1 i (r - 1) + e1 (r + 1) j + wij) i, i) =
      ((fun r => e2 i (r - 1) + e2 (r + 1) j + wij) i, i) by
    simpa using hseed]
  apply minFold_congr
  intro r hr
  obtain ⟨hr1, hr2⟩ := mem_range'_iff.1 hr
  obtain ⟨h1, h2⟩ := h r (by omega) (by omega)
  simp only [h1, h2]

theorem rowFold_zero (p q : ℕ → ℚ) (l : ℕ) (t : Tables) :
    rowFold p q l t 0 = t := rfl

theorem rowFold_succ (p q : ℕ → ℚ) (l : ℕ) (t : Tables) (m : ℕ) :
    rowFold p q l t (m + 1) =
      cellUpdate p q (rowFold p q l t m) (m + 1) (m + 1 + l - 1) := by
  unfold rowFold
  rw [range'_one_concat, List.foldl_append]
  simp [Nat.add_comm 1 m]

/-- The first `m` iterations of the `i`-loop write only the cells
`(i, i+l-1)` for `1 ≤ i ≤ m`. -/
theorem rowFold_frame (p q : ℕ → ℚ) (l : ℕ) (t : Tables) :
    ∀ m {a b : ℕ}, ¬(1 ≤ a ∧ a ≤ m ∧ b = a + l - 1) →
    (rowFold p q l t m).e a b = t.e a b ∧
    (rowFold p q l t m).w a b = t.w a b ∧
    (rowFold p q l t m).root a b = t.root a b := by
  intro m
  induction m with
  | zero => intro a b _; exact ⟨rfl, rfl, rfl⟩
  | succ m ih =>
    intro a b h
    rw [rowFold_succ]
    have hne : ¬(a = m + 1 ∧ b = m + 1 + l - 1) := by
      rintro ⟨rfl, rfl⟩
      exact h ⟨by omega, by omega, rfl⟩
    obtain ⟨he, hw, hr⟩ := cellUpdate_frame p q (rowFold p q l t m) (m + 1) (m + 1 + l - 1) hne
    have hold : ¬(1 ≤ a ∧ a ≤ m ∧ b = a + l - 1) := by
      rintro ⟨h1, h2, rfl⟩
      exact h ⟨h1, by omega, rfl⟩
    obtain ⟨ie, iw, ir⟩ := ih hold
    exact ⟨he.trans ie, hw.trans iw, hr.trans ir⟩

/-- After `m` iterations of the `i`-loop, each written cell `(i, i+l-1)`
holds the incremental weight and the result of the scan over the tables the
loop started from. -/
theorem rowFold_cell (p q : ℕ → ℚ) (l : ℕ) (t : Tables) (hl : 1 ≤ l) :
    ∀ m i : ℕ, 1 ≤ i → i ≤ m →
    (rowFold p q l t m).w i (i + l - 1) =
      t.w i (i + l - 1 - 1) + p (i + l - 1) + q (i + l - 1) ∧
    (rowFold p q l t m).e i (i + l - 1) =
      (innerScan t.e ((rowFold p q l t m).w i (i + l - 1)) i (i + l - 1)).1 ∧
    (rowFold p q l t m).root i (i + l - 1) =
      (innerScan t.e ((rowFold p q l t m).w i (i + l - 1)) i (i + l - 1)).2 := by
  intro m
  induction m with
  | zero => intro i h1 h2; omega
  | succ m ih =>
    intro i h1 h2
    rw [rowFold_succ]
    rcases Nat.lt_or_ge i (m + 1) with hi | hi
    · -- an earlier cell: untouched by this iteration
      have hne : ¬(i = m + 1 ∧ i + l - 1 = m + 1 + l - 1) := by
        rintro ⟨rfl, -⟩; omega
      obtain ⟨he, hw, hr⟩ :=
        cellUpdate_frame p q (rowFold p q l t m) (m + 1) (m + 1 + l - 1) hne
      rw [he, hw, hr]
      exact ih i h1 (by omega)
    · -- the cell written by this iteration
      have hieq : i = m + 1 := by omega
      subst hieq
      have hwrite : (cellUpdate p q (rowFold p q l t m) (m + 1) (m + 1 + l - 1)).w
          (m + 1) (m + 1 + l - 1) =
          (rowFold p q l t m).w (m + 1) (m + 1 + l - 1 - 1) +
            p (m + 1 + l - 1) + q (m + 1 + l - 1) := by
        simp [cellUpdate, upd_self]
      have hprev : (rowFold p q l t m).w (m + 1) (m + 1 + l - 1 - 1) =
          t.w (m + 1) (m + 1 + l - 1 - 1) := by
        have hfr := @rowFold_frame p q l t m (m + 1) (m + 1 + l - 1 - 1)
          (by rintro ⟨-, h, -⟩; omega)
        exact hfr.2.1
      have hscan : innerScan (rowFold p q l t m).e
          ((cellUpdate p q (rowFold p q l t m) (m + 1) (m + 1 + l - 1)).w
            (m + 1) (m + 1 + l - 1))
          (m + 1) (m + 1 + l - 1) =
          innerScan t.e
          ((cellUpdate p q (rowFold p q l t m) (m + 1) (m + 1 + l - 1)).w
            (m + 1) (m + 1 + l - 1))
          (m + 1) (m + 1 + l - 1) := by
        apply innerScan_congr _ (by omega)
        intro r hr1 hr2
        constructor
        · exact (rowFold_frame p q l t m (by rintro ⟨-, h, -⟩; omega)).1
        · exact (rowFold_frame p q l t m (by rintro ⟨-, h, -⟩; omega)).1
      refine ⟨hwrite.trans (by rw [hprev]), ?_, ?_⟩
      · have : (cellUpdate p q (rowFold p q l t m) (m + 1) (m + 1 + l - 1)).e
            (m + 1) (m + 1 + l - 1) =
            (innerScan (rowFold p q l t m).e
              ((rowFold p q l t m).w (m + 1) (m + 1 + l - 1 - 1) +
                p (m + 1 + l - 1) + q (m + 1 + l - 1))
              (m + 1) (m + 1 + l - 1)).1 := by
          simp [cellUpdate, upd_self]
        rw [this, ← hwrite, hscan]
      · have : (cellUpdate p q (rowFold p q l t m) (m + 1) (m + 1 + l - 1)).root
            (m + 1) (m + 1 + l - 1) =
            (innerScan (rowFold p q l t m).e
              ((rowFold p q l t m).w (m + 1) (m + 1 + l - 1 - 1) +
                p (m + 1 + l - 1) + q (m + 1 + l - 1))
              (m + 1) (m + 1 + l - 1)).2 := by
          simp [cellUpdate, upd_self]
        rw [this, ← hwrite, hscan]

theorem baseFill_eq_upTo (q : ℕ → ℚ) (n : ℕ) :
    baseFill q n = baseFillUpTo q (n + 1) := rfl

theorem baseFillUpTo_succ (q : ℕ → ℚ) (m : ℕ) :
    baseFillUpTo q (m + 1) =
      ⟨upd (baseFillUpTo q m).e (m + 1) m (q m),
       upd (baseFillUpTo q m).w (m + 1) m (q m),
       (baseFillUpTo q m).root⟩ := by
  unfold baseFillUpTo
  rw [range'_one_concat, List.foldl_append]
  simp [Nat.add_comm 1 m]

theorem baseFillUpTo_root (q : ℕ → ℚ) : ∀ m a b : ℕ,
    (baseFillUpTo q m).root a b = 0 := by
  intro m
  induction m with
  | zero => intro a b; rfl
  | succ m ih => intro a b; rw [baseFillUpTo_succ]; exact ih a b

theorem baseFillUpTo_base (q : ℕ → ℚ) : ∀ m i : ℕ, 1 ≤ i → i ≤ m →
    (baseFillUpTo q m).e i (i - 1) = q (i - 1) ∧
    (baseFillUpTo q m).w i (i - 1) = q (i - 1) := by
  intro m
  induction m with
  | zero => intro i h1 h2; omega
  | succ m ih =>
    intro i h1 h2
    rw [baseFillUpTo_succ]
    rcases Nat.lt_or_ge i (m + 1) with hi | hi
    · have hne : ¬(i = m + 1 ∧ i - 1 = m) := by rintro ⟨rfl, -⟩; omega
      constructor
      · show upd (baseFillUpTo q m).e (m + 1) m (q m) i (i - 1) = q (i - 1)
        rw [upd_other _ _ _ _ hne]
        exact (ih i h1 (by omega)).1
      · show upd (baseFillUpTo q m).w (m + 1) m (q m) i (i - 1) = q (i - 1)
        rw [upd_other _ _ _ _ hne]
        exact (ih i h1 (by omega)).2
    · have hieq : i = m + 1 := by omega
      subst hieq
      constructor
      · show upd (baseFillUpTo q m).e (m + 1) m (q m) (m + 1) (m + 1 - 1) = _
        have : m + 1 - 1 = m := by omega
        rw [this, upd_self]
      · show upd (baseFillUpTo q m).w (m + 1) m (q m) (m + 1) (m + 1 - 1) = _
        have : m + 1 - 1 = m := by omega
        rw [this, upd_self]

theorem baseFillUpTo_other (q : ℕ → ℚ) : ∀ m {a b : ℕ},
    ¬(1 ≤ a ∧ a ≤ m ∧ b = a - 1) →
    (baseFillUpTo q m).e a b = 0 ∧ (baseFillUpTo q m).w a b = 0 := by
  intro m
  induction m with
  | zero => intro a b _; exact ⟨rfl, rfl⟩
  | succ m ih =>
    intro a b h
    rw [baseFillUpTo_succ]
    have hne : ¬(a = m + 1 ∧ b = m) := by
      rintro ⟨rfl, rfl⟩
      exact h ⟨by omega, by omega, by omega⟩
    have hold : ¬(1 ≤ a ∧ a ≤ m ∧ b = a - 1) := by
      rintro ⟨h1, h2, rfl⟩
      exact h ⟨h1, by omega, rfl⟩
    constructor
    · show upd (baseFillUpTo q m).e (m + 1) m (q m) a b = 0
      rw [upd_other _ _ _ _ hne]
      exact (ih hold).1
    · show upd (baseFillUpTo q m).w (m + 1) m (q m) a b = 0
      rw [upd_other _ _ _ _ hne]
      exact (ih hold).2

theorem lenStep_eq_rowFold (p q : ℕ → ℚ) (n l : ℕ) (t : Tables) :
    lenStep p q n l t = rowFold p q l t (n + 1 - l) := rfl

theorem buildUpTo_zero (p q : ℕ → ℚ) (n : ℕ) :
    buildUpTo p q n 0 = baseFill q n := rfl

theorem buildUpTo_succ (p q : ℕ → ℚ) (n L : ℕ) :
    buildUpTo p q n (L + 1) = lenStep p q n (L + 1) (buildUpTo p q n L) := by
  unfold buildUpTo
  rw [range'_one_concat, List.foldl_append]
  simp [Nat.add_comm 1 L]

theorem optimalBST_eq_buildUpTo (p q : ℕ → ℚ) (n : ℕ) :
    optimalBST p q n = buildUpTo p q n n := rfl

/-- Loop invariant of the outer `l`-loop: after lengths `1..L`, (frame) every
cell not of the form `(i,j)` with `1 ≤ i ≤ j ≤ n`, `j-i+1 ≤ L` still holds
its base-fill value, and (equations) every computed cell satisfies the
incremental-weight equation and equals the result of its scan, all read off
the current tables. -/
theorem buildUpTo_spec (p q : ℕ → ℚ) (n : ℕ) : ∀ L, L ≤ n →
    (∀ a b : ℕ, ¬(1 ≤ a ∧ a ≤ b ∧ b ≤ n ∧ b - a < L) →
      (buildUpTo p q n L).e a b = (baseFill q n).e a b ∧
      (buildUpTo p q n L).w a b = (baseFill q n).w a b ∧
      (buildUpTo p q n L).root a b = (baseFill q n).root a b) ∧
    (∀ i j : ℕ, 1 ≤ i → i ≤ j → j ≤ n → j - i < L →
      (buildUpTo p q n L).w i j =
        (buildUpTo p q n L).w i (j - 1) + p j + q j ∧
      (buildUpTo p q n L).e i j =
        (innerScan (buildUpTo p q n L).e ((buildUpTo p q n L).w i j) i j).1 ∧
      (buildUpTo p q n L).root i j =
        (innerScan (buildUpTo p q n L).e ((buildUpTo p q n L).w i j) i j).2) := by
  intro L
  induction L with
  | zero =>
    intro _
    exact ⟨fun a b _ => ⟨rfl, rfl, rfl⟩, fun i j _ _ _ h4 => absurd h4 (by omega)⟩
  | succ L ih =>
    intro hL
    obtain ⟨ihF, ihE⟩ := ih (by omega)
    have hstep : buildUpTo p q n (L + 1) =
        rowFold p q (L + 1) (buildUpTo p q n L) (n - L) := by
      rw [buildUpTo_succ, lenStep_eq_rowFold]
      congr 1
      omega
    rw [hstep]
    constructor
    · -- frame
      intro a b h
      have hnw : ¬(1 ≤ a ∧ a ≤ n - L ∧ b = a + (L + 1) - 1) := by
        rintro ⟨h1, h2, rfl⟩
        exact h ⟨h1, by omega, by omega, by omega⟩
      obtain ⟨fe, fw, fr⟩ := rowFold_frame p q (L + 1) (buildUpTo p q n L) (n - L) hnw
      have hold : ¬(1 ≤ a ∧ a ≤ b ∧ b ≤ n ∧ b - a < L) := by
        rintro ⟨h1, h2, h3, h4⟩
        exact h ⟨h1, h2, h3, by omega⟩
      obtain ⟨ge, gw, gr⟩ := ihF a b hold
      exact ⟨fe.trans ge, fw.trans gw, fr.trans gr⟩
    · -- cell equations
      intro i j h1 h2 h3 h4
      rcases Nat.lt_or_ge (j - i) L with hlt | hge
      · -- a cell of smaller length: untouched, and its reads are untouched
        have hfij := @rowFold_frame p q (L + 1) (buildUpTo p q n L) (n - L)
          i j (by rintro ⟨-, -, h⟩; omega)
        have hfij1 := @rowFold_frame p q (L + 1) (buildUpTo p q n L) (n - L)
          i (j - 1) (by rintro ⟨-, -, h⟩; omega)
        have hscan : innerScan (rowFold p q (L + 1) (buildUpTo p q n L) (n - L)).e
            ((rowFold p q (L + 1) (buildUpTo p q n L) (n - L)).w i j) i j =
            innerScan (buildUpTo p q n L).e ((buildUpTo p q n L).w i j) i j := by
          rw [hfij.2.1]
          apply innerScan_congr _ h2
          intro r hr1 hr2
          constructor
          · exact (rowFold_frame p q (L + 1) (buildUpTo p q n L) (n - L)
              (by rintro ⟨-, -, h⟩; omega)).1
          · exact (rowFold_frame p q (L + 1) (buildUpTo p q n L) (n - L)
              (by rintro ⟨-, -, h⟩; omega)).1
        obtain ⟨e1, e2, e3⟩ := ihE i j h1 h2 h3 hlt
        refine ⟨?_, ?_, ?_⟩
        · rw [hfij.2.1, hfij1.2.1]; exact e1
        · rw [hfij.1, hscan]; exact e2
        · rw [hfij.2.2, hscan]; exact e3
      · -- the cell written at this length
        have hj : j = i + L := by omega
        subst hj
        have him : i ≤ n - L := by omega
        have hc := rowFold_cell p q (L + 1) (buildUpTo p q n L) (by omega)
          (n - L) i h1 him
        have harg : i + (L + 1) - 1 = i + L := by omega
        rw [harg] at hc
        obtain ⟨c1, c2, c3⟩ := hc
        have hprev : (rowFold p q (L + 1) (buildUpTo p q n L) (n - L)).w
            i (i + L - 1) = (buildUpTo p q n L).w i (i + L - 1) := by
          exact (rowFold_frame p q (L + 1) (buildUpTo p q n L) (n - L)
            (by rintro ⟨-, -, h⟩; omega)).2.1
        have hscan : innerScan (buildUpTo p q n L).e
            ((rowFold p q (L + 1) (buildUpTo p q n L) (n - L)).w i (i + L))
            i (i + L) =
            innerScan (rowFold p q (L + 1) (buildUpTo p q n L) (n - L)).e
            ((rowFold p q (L + 1) (buildUpTo p q n L) (n - L)).w i (i + L))
            i (i + L) := by
          apply innerScan_congr _ (by omega)
          intro r hr1 hr2
          constructor
          · exact ((rowFold_frame p q (L + 1) (buildUpTo p q n L) (n - L)
              (by rintro ⟨-, -, h⟩; omega)).1).symm
          · exact ((rowFold_frame p q (L + 1) (buildUpTo p q n L) (n - L)
              (by rintro ⟨-, -, h⟩; omega)).1).symm
        refine ⟨?_, ?_, ?_⟩
        · rw [c1, hprev]
        · rw [c2, hscan]
        · rw [c3, hscan]

/-- Base cells of the final tables: `e[i][i-1] = w[i][i-1] = q[i-1]`. -/
theorem obst_table_base (p q : ℕ → ℚ) (n : ℕ) :
    ∀ i : ℕ, 1 ≤ i → i ≤ n + 1 →
    (optimalBST p q n).e i (i - 1) = q (i - 1) ∧
    (optimalBST p q n).w i (i - 1) = q (i - 1) := by
  intro i h1 h2
  have hframe := ((buildUpTo_spec p q n n (le_refl n)).1) i (i - 1)
    (by rintro ⟨-, h, -, -⟩; omega)
  rw [optimalBST_eq_buildUpTo]
  rw [hframe.1, hframe.2.1, baseFill_eq_upTo]
  exact baseFillUpTo_base q (n + 1) i h1 h2

/-- Computed cells of the final tables satisfy the incremental weight
equation and record the result of the scan over the final tables. -/
theorem obst_table_cell (p q : ℕ → ℚ) (n : ℕ) :
    ∀ i j : ℕ, 1 ≤ i → i ≤ j → j ≤ n →
    (optimalBST p q n).w i j = (optimalBST p q n).w i (j - 1) + p j + q j ∧
    (optimalBST p q n).e i j =
      (innerScan (optimalBST p q n).e ((optimalBST p q n).w i j) i j).1 ∧
    (optimalBST p q n).root i j =
      (innerScan (optimalBST p q n).e ((optimalBST p q n).w i j) i j).2 := by
  intro i j h1 h2 h3
  rw [optimalBST_eq_buildUpTo]
  exact ((buildUpTo_spec p q n n (le_refl n)).2) i j h1 h2 h3 (by omega)

/-- The scan of the final tables on a non-empty interval `[i,j]` computes
the minimum split cost and the least split point achieving it. -/
theorem obst_scan_characterisation (p q : ℕ → ℚ) (n : ℕ)
    (i j : ℕ) (h1 : 1 ≤ i) (h2 : i ≤ j) (h3 : j ≤ n) :
    i ≤ (optimalBST p q n).root i j ∧
    (optimalBST p q n).root i j ≤ j ∧
    (optimalBST p q n).e i j =
      splitCost (optimalBST p q n) i j ((optimalBST p q n).root i j) ∧
    (∀ r, i ≤ r → r ≤ j →
      (optimalBST p q n).e i j ≤ splitCost (optimalBST p q n) i j r) ∧
    (∀ r, i ≤ r → r ≤ j →
      splitCost (optimalBST p q n) i j r = (optimalBST p q n).e i j →
      (optimalBST p q n).root i j ≤ r) := by
  obtain ⟨-, he, hr⟩ := obst_table_cell p q n i j h1 h2 h3
  rw [innerScan_eq_minFold] at he hr
  have hs := minFold_spec
    (fun r => (optimalBST p q n).e i (r - 1) +
      (optimalBST p q n).e (r + 1) j + (optimalBST p q n).w i j) i (j - i)
  rw [show i + (j - i) = j by omega] at hs
  obtain ⟨s1, s2, s3, s4, s5⟩ := hs
  rw [← he] at s3 s4 s5
  rw [← hr] at s1 s2 s3 s5
  refine ⟨s1, s2, ?_, ?_, ?_⟩
  · simpa [splitCost] using s3
  · intro r hr1 hr2
    simpa [splitCost] using s4 r hr1 hr2
  · intro r hr1 hr2 hc
    exact s5 r hr1 hr2 (by simpa [splitCost] using hc)

theorem wSpec_empty (p q : ℕ → ℚ) {i : ℕ} (h1 : 1 ≤ i) :
    wSpec p q i (i - 1) = q (i - 1) := by
  unfold wSpec
  rw [show i - 1 + 1 - i = 0 by omega, show i - 1 + 2 - i = 1 by omega]
  simp

theorem wSpec_succ (p q : ℕ → ℚ) {i j : ℕ} (h1 : 1 ≤ i) (h2 : i ≤ j) :
    wSpec p q i (j - 1) + p j + q j = wSpec p q i j := by
  unfold wSpec
  have hp : List.range' i (j + 1 - i) = List.range' i (j - i) ++ [j] := by
    have h := range'_one_concat i (j - i)
    rw [show i + (j - i) = j by omega] at h
    rw [show j + 1 - i = j - i + 1 by omega]
    exact h
  have hq : List.range' (i - 1) (j + 2 - i) =
      List.range' (i - 1) (j + 1 - i) ++ [j] := by
    have h := range'_one_concat (i - 1) (j + 1 - i)
    rw [show i - 1 + (j + 1 - i) = j by omega] at h
    rw [show j + 2 - i = j + 1 - i + 1 by omega]
    exact h
  rw [hp, hq, show j - 1 + 1 - i = j - i by omega, show j - 1 + 2 - i = j + 1 - i by omega]
  simp only [List.map_append, List.sum_append, List.map_cons, List.map_nil,
    List.sum_cons, List.sum_nil]
  ring

theorem obst_w_closed (p q : ℕ → ℚ) (n : ℕ) :
    ∀ k i : ℕ, 1 ≤ i → i + k ≤ n →
    (optimalBST p q n).w i (i + k) = wSpec p q i (i + k) := by
  intro k
  induction k with
  | zero =>
    intro i h1 h2
    rw [Nat.add_zero] at h2 ⊢
    have hc := (obst_table_cell p q n i i h1 (le_refl i) h2).1
    have hb := (obst_table_base p q n i h1 (by omega)).2
    rw [hc, hb, ← wSpec_succ p q h1 (le_refl i), wSpec_empty p q h1]
  | succ k ih =>
    intro i h1 h2
    have hc := (obst_table_cell p q n i (i + (k + 1)) h1 (by omega) h2).1
    rw [hc, show i + (k + 1) - 1 = i + k by omega, ih i h1 (by omega)]
    have hs := @wSpec_succ p q i (i + (k + 1)) h1 (by omega)
    rw [show i + (k + 1) - 1 = i + k by omega] at hs
    exact hs

/-- C3: for every interval `1 ≤ i ≤ j ≤ n` the weight table equals the
closed form `sum(p[i..j]) + sum(q[i-1..j])`, although it is computed
incrementally as `w[i][j] = w[i][j-1] + p[j] + q[j]`. -/
theorem obst_weight_closed_form (p q : ℕ → ℚ) (n i j : ℕ)
    (h1 : 1 ≤ i) (h2 : i ≤ j) (h3 : j ≤ n) :
    (optimalBST p q n).w i j = wSpec p q i j := by
  have h := obst_w_closed p q n (j - i) i h1 (by omega)
  rwa [show i + (j - i) = j by omega] at h

theorem obst_weight_closed_form_witness :
    (1 ≤ 1 ∧ 1 ≤ 5 ∧ 5 ≤ 5) ∧
    (optimalBST p5 q5 5).w 1 5 = wSpec p5 q5 1 5 :=
  ⟨⟨by decide, by decide, by decide⟩,
    obst_weight_closed_form p5 q5 5 1 5 (by decide) (by decide) (by decide)⟩

/-- C4: the empty-interval base cases of the final tables:
`e[i][i-1] = q[i-1]` and `w[i][i-1] = q[i-1]` for every `i` in `1..n+1`. -/
theorem obst_base_case (p q : ℕ → ℚ) (n i : ℕ) (h1 : 1 ≤ i) (h2 : i ≤ n + 1) :
    (optimalBST p q n).e i (i - 1) = q (i - 1) ∧
    (optimalBST p q n).w i (i - 1) = q (i - 1) :=
  obst_table_base p q n i h1 h2

theorem obst_base_case_witness :
    (1 ≤ 3 ∧ 3 ≤ 5 + 1) ∧
    (optimalBST p5 q5 5).e 3 2 = q5 2 ∧ (optimalBST p5 q5 5).w 3 2 = q5 2 :=
  ⟨⟨by decide, by decide⟩, obst_base_case p5 q5 5 3 (by decide) (by decide)⟩

/-- C2: on every non-empty interval `1 ≤ i ≤ j ≤ n`, `e[i][j]` is the
minimum over `r ∈ [i..j]` of `e[i][r-1] + e[r+1][j] + w[i][j]`, and
`root[i][j]` is the smallest `r` achieving that minimum (the increasing
scan updates on strict `<` only, so the first minimiser is kept). -/
theorem obst_recurrence_tiebreak (p q : ℕ → ℚ) (n i j : ℕ)
    (h1 : 1 ≤ i) (h2 : i ≤ j) (h3 : j ≤ n) :
    IsLeast {v : ℚ | ∃ r : ℕ, i ≤ r ∧ r ≤ j ∧
      splitCost (optimalBST p q n) i j r = v} ((optimalBST p q n).e i j) ∧
    i ≤ (optimalBST p q n).root i j ∧ (optimalBST p q n).root i j ≤ j ∧
    splitCost (optimalBST p q n) i j ((optimalBST p q n).root i j) =
      (optimalBST p q n).e i j ∧
    ∀ r, i ≤ r → r ≤ j →
      splitCost (optimalBST p q n) i j r = (optimalBST p q n).e i j →
      (optimalBST p q n).root i j ≤ r := by
  obtain ⟨s1, s2, s3, s4, s5⟩ := obst_scan_characterisation p q n i j h1 h2 h3
  refine ⟨⟨⟨(optimalBST p q n).root i j, s1, s2, s3.symm⟩, ?_⟩, s1, s2, s3.symm, s5⟩
  rintro v ⟨r, hr1, hr2, rfl⟩
  exact s4 r hr1 hr2

theorem obst_recurrence_tiebreak_witness :
    (1 ≤ 1 ∧ 1 ≤ 5 ∧ 5 ≤ 5) ∧
    (IsLeast {v : ℚ | ∃ r : ℕ, 1 ≤ r ∧ r ≤ 5 ∧
      splitCost (optimalBST p5 q5 5) 1 5 r = v} ((optimalBST p5 q5 5).e 1 5) ∧
    1 ≤ (optimalBST p5 q5 5).root 1 5 ∧ (optimalBST p5 q5 5).root 1 5 ≤ 5 ∧
    splitCost (optimalBST p5 q5 5) 1 5 ((optimalBST p5 q5 5).root 1 5) =
      (optimalBST p5 q5 5).e 1 5 ∧
    ∀ r, 1 ≤ r → r ≤ 5 →
      splitCost (optimalBST p5 q5 5) 1 5 r = (optimalBST p5 q5 5).e 1 5 →
      (optimalBST p5 q5 5).root 1 5 ≤ r) :=
  ⟨⟨by decide, by decide, by decide⟩,
    obst_recurrence_tiebreak p5 q5 5 1 5 (by decide) (by decide) (by decide)⟩

theorem printOS_succ (rt : ℕ → ℕ → ℕ) (f i j parent : ℕ) (isLeft : Bool) :
    printOptimalStructure rt (f + 1) i j parent isLeft =
      if j < i then
        (if j + 1 = i then [SFact.gap j parent (sideOf isLeft)] else [])
      else
        (if parent = 0 then SFact.rootF (rt i j)
          else SFact.child (rt i j) parent (sideOf isLeft)) ::
          (printOptimalStructure rt f i (rt i j - 1) (rt i j) true ++
            printOptimalStructure rt f (rt i j + 1) j (rt i j) false) := rfl

/-- When the root table is in range on every subinterval of `[1,n]`, the
reporter's recursion on `[i,j]` terminates within `j + 2 - i` calls: any
two sufficient fuels give the same fact list. -/
theorem report_fuel_irrelevant (rt : ℕ → ℕ → ℕ) (n : ℕ)
    (hrt : ∀ a b : ℕ, 1 ≤ a → a ≤ b → b ≤ n → a ≤ rt a b ∧ rt a b ≤ b) :
    ∀ d i j parent : ℕ, ∀ s : Bool, ∀ f1 f2 : ℕ,
      j + 1 - i ≤ d → 1 ≤ i → i ≤ j + 1 → j ≤ n →
      j + 2 - i ≤ f1 → j + 2 - i ≤ f2 →
      printOptimalStructure rt f1 i j parent s =
        printOptimalStructure rt f2 i j parent s := by
  intro d
  induction d with
  | zero =>
    intro i j parent s f1 f2 hd h1 h2 h3 hf1 hf2
    -- empty interval: j + 1 = i
    have hji : j + 1 = i := by omega
    obtain ⟨f1', rfl⟩ : ∃ f1', f1 = f1' + 1 := ⟨f1 - 1, by omega⟩
    obtain ⟨f2', rfl⟩ : ∃ f2', f2 = f2' + 1 := ⟨f2 - 1, by omega⟩
    rw [printOS_succ, printOS_succ]
    simp only [if_pos (show j < i by omega)]
  | succ d ih =>
    intro i j parent s f1 f2 hd h1 h2 h3 hf1 hf2
    obtain ⟨f1', rfl⟩ : ∃ f1', f1 = f1' + 1 := ⟨f1 - 1, by omega⟩
    obtain ⟨f2', rfl⟩ : ∃ f2', f2 = f2' + 1 := ⟨f2 - 1, by omega⟩
    rw [printOS_succ, printOS_succ]
    rcases Nat.lt_or_ge j i with hji | hji
    · rw [if_pos hji, if_pos hji]
    · simp only [if_neg (show ¬j < i by omega)]
      obtain ⟨hr1, hr2⟩ := hrt i j h1 hji h3
      have hL := ih i (rt i j - 1) (rt i j) true f1' f2'
        (by omega) h1 (by omega) (by omega) (by omega) (by omega)
      have hR := ih (rt i j + 1) j (rt i j) false f1' f2'
        (by omega) (by omega) (by omega) h3 (by omega) (by omega)
      rw [hL, hR]

/-- C9: on every non-empty interval, `root[i][j]` is assigned (the first
scan candidate always beats the infinite sentinel) and lies in range
`i ≤ root[i][j] ≤ j`; consequently the reporter's recursion on the built
table is well-founded — its result is independent of any sufficient fuel
bound. -/
theorem obst_root_in_range (p q : ℕ → ℚ) (n i j : ℕ)
    (hp : ∀ k, 0 ≤ p k) (hq : ∀ k, 0 ≤ q k)
    (h1 : 1 ≤ i) (h2 : i ≤ j) (h3 : j ≤ n) :
    i ≤ (optimalBST p q n).root i j ∧ (optimalBST p q n).root i j ≤ j ∧
    ∀ parent : ℕ, ∀ s : Bool, ∀ f : ℕ, j + 2 - i ≤ f →
      printOptimalStructure (optimalBST p q n).root f i j parent s =
        printOptimalStructure (optimalBST p q n).root (j + 2 - i) i j parent s := by
  obtain ⟨s1, s2, -⟩ := obst_scan_characterisation p q n i j h1 h2 h3
  refine ⟨s1, s2, ?_⟩
  intro parent s f hf
  exact report_fuel_irrelevant (optimalBST p q n).root n
    (fun a b ha hab hb =>
      ⟨(obst_scan_characterisation p q n a b ha hab hb).1,
       (obst_scan_characterisation p q n a b ha hab hb).2.1⟩)
    (j + 1 - i) i j parent s f (j + 2 - i)
    (le_refl _) h1 (by omega) h3 hf (le_refl _)

theorem obst_root_in_range_witness :
    ((∀ k, 0 ≤ p5 k) ∧ (∀ k, 0 ≤ q5 k) ∧ 1 ≤ 1 ∧ 1 ≤ 5 ∧ 5 ≤ 5) ∧
    (1 ≤ (optimalBST p5 q5 5).root 1 5 ∧ (optimalBST p5 q5 5).root 1 5 ≤ 5 ∧
    ∀ parent : ℕ, ∀ s : Bool, ∀ f : ℕ, 5 + 2 - 1 ≤ f →
      printOptimalStructure (optimalBST p5 q5 5).root f 1 5 parent s =
        printOptimalStructure (optimalBST p5 q5 5).root (5 + 2 - 1) 1 5 parent s) := by
  have hp : ∀ k, 0 ≤ p5 k := by
    intro k
    match k with
    | 0 => decide
    | 1 => decide
    | 2 => decide
    | 3 => decide
    | 4 => decide
    | 5 => decide
    | (m + 6) => exact le_refl (0 : ℚ)
  have hq : ∀ k, 0 ≤ q5 k := by
    intro k
    match k with
    | 0 => decide
    | 1 => decide
    | 2 => decide
    | 3 => decide
    | 4 => decide
    | 5 => decide
    | (m + 6) => exact le_refl (0 : ℚ)
  exact ⟨⟨hp, hq, by decide, by decide, by decide⟩,
    obst_root_in_range p5 q5 5 1 5 hp hq (by decide) (by decide) (by decide)⟩

theorem wSpec_split (p q : ℕ → ℚ) {i r j : ℕ}
    (h1 : 1 ≤ i) (h2 : i ≤ r) (h3 : r ≤ j) :
    wSpec p q i (r - 1) + p r + wSpec p q (r + 1) j = wSpec p q i j := by
  unfold wSpec
  have hp1 : List.range' i (j + 1 - i) =
      List.range' i (r - i) ++ List.range' r (j + 1 - r) := by
    have h := List.range'_append_1 i (r - i) (j + 1 - r)
    rw [show i + (r - i) = r by omega,
      show j + 1 - r + (r - i) = j + 1 - i by omega] at h
    exact h.symm
  have hp2 : List.range' r (j + 1 - r) = r :: List.range' (r + 1) (j - r) := by
    rw [show j + 1 - r = j - r + 1 by omega]
    exact List.range'_succ r (j - r) 1
  have hq1 : List.range' (i - 1) (j + 2 - i) =
      List.range' (i - 1) (r + 1 - i) ++ List.range' r (j + 1 - r) := by
    have h := List.range'_append_1 (i - 1) (r + 1 - i) (j + 1 - r)
    rw [show i - 1 + (r + 1 - i) = r by omega,
      show j + 1 - r + (r + 1 - i) = j + 2 - i by omega] at h
    exact h.symm
  rw [show r - 1 + 1 - i = r - i by omega, show r - 1 + 2 - i = r + 1 - i by omega,
    show j + 1 - (r + 1) = j - r by omega, show r + 1 - 1 = r by omega,
    show j + 2 - (r + 1) = j + 1 - r by omega, hp1, hq1, hp2]
  simp only [List.map_append, List.sum_append, List.map_cons, List.sum_cons]
  ring

/-- A tree that is valid on `[i,j]` carries exactly the probability mass
`wSpec i j`. -/
theorem massOf_valid (p q : ℕ → ℚ) : ∀ (t : OTree) {i j : ℕ},
    1 ≤ i → validT i j t = true → massOf p q t = wSpec p q i j := by
  intro t
  induction t with
  | gapLeaf g =>
    intro i j h1 hv
    simp only [validT, Bool.and_eq_true, decide_eq_true_eq] at hv
    obtain ⟨hji, hg⟩ := hv
    subst hg
    rw [show (g : ℕ) = i - 1 by omega] at *
    simp only [massOf]
    rw [wSpec_empty p q h1]
  | node r l rr ihl ihr =>
    intro i j h1 hv
    simp only [validT, Bool.and_eq_true, decide_eq_true_eq] at hv
    obtain ⟨⟨⟨hir, hrj⟩, hvl⟩, hvr⟩ := hv
    simp only [massOf]
    rw [ihl h1 hvl, ihr (by omega) hvr, ← wSpec_split p q h1 hir hrj]
    ring

/-- Burying a tree one level deeper adds its mass to its cost. -/
theorem costD_succ (p q : ℕ → ℚ) : ∀ (t : OTree) (d : ℕ),
    costD p q (d + 1) t = costD p q d t + massOf p q t := by
  intro t
  induction t with
  | gapLeaf g =>
    intro d
    simp only [costD, massOf]
    push_cast
    ring
  | node r l rr ihl ihr =>
    intro d
    simp only [costD, massOf]
    rw [ihl (d + 1), ihr (d + 1)]
    push_cast
    ring

/-- On an empty interval the only valid tree is the single gap leaf, whose
cost is the base-case table entry. -/
theorem obst_empty_interval_least (p q : ℕ → ℚ) (n i j : ℕ)
    (h1 : 1 ≤ i) (hij : j + 1 = i) (h3 : j ≤ n) :
    IsLeast {c : ℚ | ∃ t : OTree, validT i j t = true ∧ treeCost p q t = c}
      ((optimalBST p q n).e i j) := by
  have hbase := (obst_table_base p q n i h1 (by omega)).1
  rw [show i - 1 = j by omega] at hbase
  constructor
  · refine ⟨OTree.gapLeaf j, ?_, ?_⟩
    · simp [validT, hij]
    · simp [treeCost, costD, hbase]
  · rintro c ⟨t, hv, rfl⟩
    cases t with
    | gapLeaf g =>
      simp only [validT, Bool.and_eq_true, decide_eq_true_eq] at hv
      obtain ⟨-, hg⟩ := hv
      subst hg
      simp [treeCost, costD, hbase]
    | node r l rr =>
      simp only [validT, Bool.and_eq_true, decide_eq_true_eq] at hv
      obtain ⟨⟨⟨hir, hrj⟩, -⟩, -⟩ := hv
      omega

/-- On every interval (measure-bounded induction), `e[i][j]` is the least
cost of any valid tree shape on `[i,j]`. -/
theorem obst_opt_aux (p q : ℕ → ℚ) (n : ℕ) : ∀ d i j : ℕ,
    j + 1 - i ≤ d → 1 ≤ i → i ≤ j + 1 → j ≤ n →
    IsLeast {c : ℚ | ∃ t : OTree, validT i j t = true ∧ treeCost p q t = c}
      ((optimalBST p q n).e i j) := by
  intro d
  induction d with
  | zero =>
    intro i j hd h1 h2 h3
    exact obst_empty_interval_least p q n i j h1 (by omega) h3
  | succ d ih =>
    intro i j hd h1 h2 h3
    rcases Nat.lt_or_ge j i with hji | hji
    · exact obst_empty_interval_least p q n i j h1 (by omega) h3
    · obtain ⟨s1, s2, s3, s4, s5⟩ := obst_scan_characterisation p q n i j h1 hji h3
      have hw := obst_weight_closed_form p q n i j h1 hji h3
      constructor
      · obtain ⟨⟨tl, hvl, hcl⟩, -⟩ := ih i ((optimalBST p q n).root i j - 1)
          (by omega) h1 (by omega) (by omega)
        obtain ⟨⟨tr, hvr, hcr⟩, -⟩ := ih ((optimalBST p q n).root i j + 1) j
          (by omega) (by omega) (by omega) h3
        refine ⟨OTree.node ((optimalBST p q n).root i j) tl tr, ?_, ?_⟩
        · simp only [validT, Bool.and_eq_true, decide_eq_true_eq]
          exact ⟨⟨⟨s1, s2⟩, hvl⟩, hvr⟩
        · simp only [treeCost, costD]
          simp only [treeCost] at hcl hcr
          rw [costD_succ p q tl 1, costD_succ p q tr 1, hcl, hcr,
            massOf_valid p q tl h1 hvl,
            massOf_valid p q tr (by omega) hvr, s3]
          simp only [splitCost]
          rw [hw, ← wSpec_split p q h1 s1 s2]
          push_cast
          ring
      · rintro c ⟨t, hv, rfl⟩
        cases t with
        | gapLeaf g =>
          simp only [validT, Bool.and_eq_true, decide_eq_true_eq] at hv
          obtain ⟨hji2, -⟩ := hv
          omega
        | node r' l rr =>
          simp only [validT, Bool.and_eq_true, decide_eq_true_eq] at hv
          obtain ⟨⟨⟨hir, hrj⟩, hvl⟩, hvr⟩ := hv
          obtain ⟨-, hlb_l⟩ := ih i (r' - 1) (by omega) h1 (by omega) (by omega)
          obtain ⟨-, hlb_r⟩ := ih (r' + 1) j (by omega) (by omega) (by omega) h3
          have hl : (optimalBST p q n).e i (r' - 1) ≤ treeCost p q l :=
            hlb_l ⟨l, hvl, rfl⟩
          have hr : (optimalBST p q n).e (r' + 1) j ≤ treeCost p q rr :=
            hlb_r ⟨rr, hvr, rfl⟩
          have hcost : treeCost p q (OTree.node r' l rr) =
              treeCost p q l + treeCost p q rr + wSpec p q i j := by
            simp only [treeCost, costD]
            rw [costD_succ p q l 1, costD_succ p q rr 1,
              massOf_valid p q l h1 hvl, massOf_valid p q rr (by omega) hvr,
              ← wSpec_split p q h1 hir hrj]
            push_cast
            ring
          rw [hcost]
          have hs := s4 r' hir hrj
          simp only [splitCost] at hs
          rw [hw] at hs
          linarith

/-- C1: for every `n ≥ 0` and non-negative probability vectors, `e[1][n]`
is the least value of `sum(depth(key)*p) + sum(depth(gap)*q)` over every
possible BST shape on the `n` ordered keys with the `n+1` gaps as leaves
(depth counts the root as 1 comparison). -/
theorem obst_optimality (p q : ℕ → ℚ) (n : ℕ)
    (hp : ∀ k, 0 ≤ p k) (hq : ∀ k, 0 ≤ q k) :
    IsLeast {c : ℚ | ∃ t : OTree, validT 1 n t = true ∧ treeCost p q t = c}
      ((optimalBST p q n).e 1 n) :=
  obst_opt_aux p q n n 1 n (by omega) (le_refl 1) (by omega) (le_refl n)

theorem obst_optimality_witness :
    ((∀ k, 0 ≤ p5 k) ∧ (∀ k, 0 ≤ q5 k)) ∧
    IsLeast {c : ℚ | ∃ t : OTree, validT 1 5 t = true ∧ treeCost p5 q5 t = c}
      ((optimalBST p5 q5 5).e 1 5) := by
  have hp : ∀ k, 0 ≤ p5 k := by
    intro k
    match k with
    | 0 => decide
    | 1 => decide
    | 2 => decide
    | 3 => decide
    | 4 => decide
    | 5 => decide
    | (m + 6) => exact le_refl (0 : ℚ)
  have hq : ∀ k, 0 ≤ q5 k := by
    intro k
    match k with
    | 0 => decide
    | 1 => decide
    | 2 => decide
    | 3 => decide
    | 4 => decide
    | 5 => decide
    | (m + 6) => exact le_refl (0 : ℚ)
  exact ⟨⟨hp, hq⟩, obst_optimality p5 q5 5 hp hq⟩

theorem keyIndexList_append : ∀ A B : List SFact,
    keyIndexList (A ++ B) = keyIndexList A ++ keyIndexList B := by
  intro A B
  induction A with
  | nil => rfl
  | cons x A ih =>
    cases x with
    | rootF r => simp [keyIndexList, ih]
    | child r par s => simp [keyIndexList, ih]
    | gap g par s => simp [keyIndexList, ih]

theorem gapIndexList_append : ∀ A B : List SFact,
    gapIndexList (A ++ B) = gapIndexList A ++ gapIndexList B := by
  intro A B
  induction A with
  | nil => rfl
  | cons x A ih =>
    cases x with
    | rootF r => simp [gapIndexList, ih]
    | child r par s => simp [gapIndexList, ih]
    | gap g par s => simp [gapIndexList, ih]

theorem parentsOk_append : ∀ (A B : List SFact) (seen : List ℕ),
    parentsOk (A ++ B) seen =
      (parentsOk A seen && parentsOk B ((keyIndexList A).reverse ++ seen)) := by
  intro A
  induction A with
  | nil => intro B seen; simp [parentsOk, keyIndexList]
  | cons x A ih =>
    intro B seen
    cases x with
    | rootF r =>
      simp only [List.cons_append, parentsOk, keyIndexList, List.reverse_cons, List.append_eq]
      rw [ih]
      simp [List.append_assoc]
    | child r par s =>
      simp only [List.cons_append, parentsOk, keyIndexList, List.reverse_cons, List.append_eq]
      rw [ih]
      simp [List.append_assoc, Bool.and_assoc]
    | gap g par s =>
      simp only [List.cons_append, parentsOk, keyIndexList, List.append_eq]
      rw [ih]
      simp [Bool.and_assoc]

theorem parentsOk_mono : ∀ (F : List SFact) (s1 s2 : List ℕ),
    (∀ x, x ∈ s1 → x ∈ s2) → parentsOk F s1 = true → parentsOk F s2 = true := by
  intro F
  induction F with
  | nil => intro s1 s2 _ _; rfl
  | cons x F ih =>
    intro s1 s2 hsub h
    cases x with
    | rootF r =>
      simp only [parentsOk] at h ⊢
      refine ih (r :: s1) (r :: s2) ?_ h
      intro y hy
      rcases List.mem_cons.1 hy with rfl | hy
      · exact List.mem_cons_self _ _
      · exact List.mem_cons_of_mem _ (hsub y hy)
    | child r par s =>
      simp only [parentsOk, Bool.and_eq_true, decide_eq_true_eq] at h ⊢
      refine ⟨hsub par h.1, ih (r :: s1) (r :: s2) ?_ h.2⟩
      intro y hy
      rcases List.mem_cons.1 hy with rfl | hy
      · exact List.mem_cons_self _ _
      · exact List.mem_cons_of_mem _ (hsub y hy)
    | gap g par s =>
      simp only [parentsOk, Bool.and_eq_true, decide_eq_true_eq] at h ⊢
      exact ⟨hsub par h.1, ih s1 s2 hsub h.2⟩

/-- The reporter on an empty interval `[i, i-1]`: exactly one gap fact. -/
theorem report_spec_empty (rt : ℕ → ℕ → ℕ) (i j parent : ℕ) (s : Bool) (f : ℕ)
    (h1 : 1 ≤ i) (hji : j + 1 = i) (hf : 1 ≤ f) :
    (keyIndexList (printOptimalStructure rt f i j parent s)).Perm
      (List.range' i (j + 1 - i)) ∧
    (gapIndexList (printOptimalStructure rt f i j parent s)).Perm
      (List.range' (i - 1) (j + 2 - i)) ∧
    (parent ≠ 0 →
      ∀ x ∈ printOptimalStructure rt f i j parent s, isRootFact x = false) ∧
    (∀ seen : List ℕ,
      parentsOk (printOptimalStructure rt f i j parent s) (parent :: seen) = true) := by
  obtain ⟨f', rfl⟩ : ∃ f', f = f' + 1 := ⟨f - 1, by omega⟩
  rw [printOS_succ]
  simp only [if_pos (show j < i by omega), if_pos hji]
  refine ⟨?_, ?_, ?_, ?_⟩
  · rw [show j + 1 - i = 0 by omega]
    simp [keyIndexList]
  · rw [show j + 2 - i = 1 by omega, show i - 1 = j by omega]
    simp [gapIndexList]
  · intro _ x hx
    rw [List.mem_singleton.1 hx]
    rfl
  · intro seen
    simp [parentsOk]

/-- Structural completeness of the reporter on `[i,j]` (induction on a bound
`d` of the interval length), for any root table in range on `[1,n]`: the key
indices are a permutation of `i..j`, the gap indices of `i-1..j`, no root
fact is emitted under a real parent, and every named parent was reported
before (pre-order). -/
theorem report_spec (rt : ℕ → ℕ → ℕ) (n : ℕ)
    (hrt : ∀ a b : ℕ, 1 ≤ a → a ≤ b → b ≤ n → a ≤ rt a b ∧ rt a b ≤ b) :
    ∀ d i j parent : ℕ, ∀ s : Bool, ∀ f : ℕ,
      j + 1 - i ≤ d → 1 ≤ i → i ≤ j + 1 → j ≤ n → j + 2 - i ≤ f →
      (keyIndexList (printOptimalStructure rt f i j parent s)).Perm
        (List.range' i (j + 1 - i)) ∧
      (gapIndexList (printOptimalStructure rt f i j parent s)).Perm
        (List.range' (i - 1) (j + 2 - i)) ∧
      (parent ≠ 0 →
        ∀ x ∈ printOptimalStructure rt f i j parent s, isRootFact x = false) ∧
      (∀ seen : List ℕ,
        parentsOk (printOptimalStructure rt f i j parent s) (parent :: seen) = true) := by
  intro d
  induction d with
  | zero =>
    intro i j parent s f hd h1 h2 h3 hf
    exact report_spec_empty rt i j parent s f h1 (by omega) (by omega)
  | succ d ih =>
    intro i j parent s f hd h1 h2 h3 hf
    rcases Nat.lt_or_ge j i with hji | hji
    · exact report_spec_empty rt i j parent s f h1 (by omega) (by omega)
    · obtain ⟨f', rfl⟩ : ∃ f', f = f' + 1 := ⟨f - 1, by omega⟩
      rw [printOS_succ]
      simp only [if_neg (show ¬j < i by omega)]
      obtain ⟨hr1, hr2⟩ := hrt i j h1 hji h3
      obtain ⟨HL1, HL2, HL3, HL4⟩ := ih i (rt i j - 1) (rt i j) true f'
        (by omega) h1 (by omega) (by omega) (by omega)
      obtain ⟨HR1, HR2, HR3, HR4⟩ := ih (rt i j + 1) j (rt i j) false f'
        (by omega) (by omega) (by omega) h3 (by omega)
      rw [show rt i j - 1 + 1 - i = rt i j - i by omega] at HL1
      rw [show rt i j - 1 + 2 - i = rt i j + 1 - i by omega] at HL2
      rw [show j + 1 - (rt i j + 1) = j - rt i j by omega] at HR1
      rw [show rt i j + 1 - 1 = rt i j by omega,
        show j + 2 - (rt i j + 1) = j + 1 - rt i j by omega] at HR2
      have hsplitp : List.range' i (j + 1 - i) =
          List.range' i (rt i j - i) ++ List.range' (rt i j) (j + 1 - rt i j) := by
        have h := List.range'_append_1 i (rt i j - i) (j + 1 - rt i j)
        rw [show i + (rt i j - i) = rt i j by omega,
          show j + 1 - rt i j + (rt i j - i) = j + 1 - i by omega] at h
        exact h.symm
      have hcons : List.range' (rt i j) (j + 1 - rt i j) =
          rt i j :: List.range' (rt i j + 1) (j - rt i j) := by
        rw [show j + 1 - rt i j = (j - rt i j) + 1 by omega]
        exact List.range'_succ (rt i j) (j - rt i j) 1
      have hsplitq : List.range' (i - 1) (j + 2 - i) =
          List.range' (i - 1) (rt i j + 1 - i) ++
            List.range' (rt i j) (j + 1 - rt i j) := by
        have h := List.range'_append_1 (i - 1) (rt i j + 1 - i) (j + 1 - rt i j)
        rw [show i - 1 + (rt i j + 1 - i) = rt i j by omega,
          show j + 1 - rt i j + (rt i j + 1 - i) = j + 2 - i by omega] at h
        exact h.symm
      have hgen : ∀ X : List ℕ,
          parentsOk
            (printOptimalStructure rt f' i (rt i j - 1) (rt i j) true ++
              printOptimalStructure rt f' (rt i j + 1) j (rt i j) false)
            (rt i j :: X) = true := by
        intro X
        rw [parentsOk_append, Bool.and_eq_true]
        refine ⟨HL4 X, ?_⟩
        refine parentsOk_mono _ [rt i j] _ ?_ (HR4 [])
        intro x hx
        rw [List.mem_singleton.1 hx]
        exact List.mem_append_right _ (List.mem_cons_self _ _)
      refine ⟨?_, ?_, ?_, ?_⟩
      · have hk : keyIndexList
            ((if parent = 0 then SFact.rootF (rt i j)
              else SFact.child (rt i j) parent (sideOf s)) ::
              (printOptimalStructure rt f' i (rt i j - 1) (rt i j) true ++
                printOptimalStructure rt f' (rt i j + 1) j (rt i j) false)) =
            rt i j ::
              (keyIndexList (printOptimalStructure rt f' i (rt i j - 1) (rt i j) true) ++
                keyIndexList (printOptimalStructure rt f' (rt i j + 1) j (rt i j) false)) := by
          by_cases hpar : parent = 0 <;>
            simp [hpar, keyIndexList, keyIndexList_append]
        rw [hk, hsplitp, hcons]
        exact ((HL1.append HR1).cons (rt i j)).trans List.perm_middle.symm
      · have hg : gapIndexList
            ((if parent = 0 then SFact.rootF (rt i j)
              else SFact.child (rt i j) parent (sideOf s)) ::
              (printOptimalStructure rt f' i (rt i j - 1) (rt i j) true ++
                printOptimalStructure rt f' (rt i j + 1) j (rt i j) false)) =
            gapIndexList (printOptimalStructure rt f' i (rt i j - 1) (rt i j) true) ++
              gapIndexList (printOptimalStructure rt f' (rt i j + 1) j (rt i j) false) := by
          by_cases hpar : parent = 0 <;>
            simp [hpar, gapIndexList, gapIndexList_append]
        rw [hg, hsplitq]
        exact HL2.append HR2
      · intro hpar x hx
        rw [if_neg hpar] at hx
        rcases List.mem_cons.1 hx with rfl | hx
        · rfl
        rcases List.mem_append.1 hx with hx | hx
        · exact HL3 (by omega) x hx
        · exact HR3 (by omega) x hx
      · intro seen
        by_cases hpar : parent = 0
        · rw [if_pos hpar]
          simp only [parentsOk]
          exact hgen (parent :: seen)
        · rw [if_neg hpar]
          simp only [parentsOk]
          rw [Bool.and_eq_true]
          exact ⟨decide_eq_true (List.mem_cons_self parent seen), hgen (parent :: seen)⟩

/-- C6: for `n ≥ 1`, the structure report over `[1,n]` built from
`optimalBST`'s root table emits each key index `1..n` exactly once and each
gap index `0..n` exactly once (hence exactly `n` key facts and `n+1` gap
facts), starts with the root fact for `root[1][n]`, contains exactly one
parentless root fact, and — being pre-order — every parent named by a child
or gap fact is a key reported earlier in the list. -/
theorem obst_report_complete (p q : ℕ → ℚ) (n : ℕ) (hn : 1 ≤ n) :
    (keyIndexList (reportStructure (optimalBST p q n).root n)).Perm
      (List.range' 1 n) ∧
    (gapIndexList (reportStructure (optimalBST p q n).root n)).Perm
      (List.range' 0 (n + 1)) ∧
    (reportStructure (optimalBST p q n).root n).head? =
      some (SFact.rootF ((optimalBST p q n).root 1 n)) ∧
    List.countP isRootFact (reportStructure (optimalBST p q n).root n) = 1 ∧
    parentsOk (reportStructure (optimalBST p q n).root n) [] = true := by
  have hrt : ∀ a b : ℕ, 1 ≤ a → a ≤ b → b ≤ n →
      a ≤ (optimalBST p q n).root a b ∧ (optimalBST p q n).root a b ≤ b :=
    fun a b ha hab hb =>
      ⟨(obst_scan_characterisation p q n a b ha hab hb).1,
       (obst_scan_characterisation p q n a b ha hab hb).2.1⟩
  obtain ⟨H1, H2, -, -⟩ := report_spec (optimalBST p q n).root n hrt
    n 1 n 0 false (n + 2) (by omega) (le_refl 1) (by omega) (le_refl n) (by omega)
  rw [show n + 1 - 1 = n by omega] at H1
  rw [show (1 : ℕ) - 1 = 0 by omega, show n + 2 - 1 = n + 1 by omega] at H2
  obtain ⟨hr1, hr2⟩ := hrt 1 n (le_refl 1) hn (le_refl n)
  have hunfold : reportStructure (optimalBST p q n).root n =
      SFact.rootF ((optimalBST p q n).root 1 n) ::
        (printOptimalStructure (optimalBST p q n).root (n + 1) 1
            ((optimalBST p q n).root 1 n - 1) ((optimalBST p q n).root 1 n) true ++
          printOptimalStructure (optimalBST p q n).root (n + 1)
            ((optimalBST p q n).root 1 n + 1) n ((optimalBST p q n).root 1 n)
            false) := by
    show printOptimalStructure (optimalBST p q n).root (n + 1 + 1) 1 n 0 false = _
    rw [printOS_succ, if_neg (show ¬n < 1 by omega), if_pos rfl]
  obtain ⟨-, -, HL3, HL4⟩ := report_spec (optimalBST p q n).root n hrt
    n 1 ((optimalBST p q n).root 1 n - 1) ((optimalBST p q n).root 1 n) true
    (n + 1) (by omega) (le_refl 1) (by omega) (by omega) (by omega)
  obtain ⟨-, -, HR3, HR4⟩ := report_spec (optimalBST p q n).root n hrt
    n ((optimalBST p q n).root 1 n + 1) n ((optimalBST p q n).root 1 n) false
    (n + 1) (by omega) (by omega) (by omega) (le_refl n) (by omega)
  refine ⟨H1, H2, ?_, ?_, ?_⟩
  · rw [hunfold]
    rfl
  · rw [hunfold, List.countP_cons]
    have hz : List.countP isRootFact
        (printOptimalStructure (optimalBST p q n).root (n + 1) 1
            ((optimalBST p q n).root 1 n - 1) ((optimalBST p q n).root 1 n) true ++
          printOptimalStructure (optimalBST p q n).root (n + 1)
            ((optimalBST p q n).root 1 n + 1) n ((optimalBST p q n).root 1 n)
            false) = 0 := by
      rw [List.countP_eq_zero]
      intro x hx
      rcases List.mem_append.1 hx with hx | hx
      · simp [HL3 (by omega) x hx]
      · simp [HR3 (by omega) x hx]
    rw [hz]
    rfl
  · rw [hunfold]
    simp only [parentsOk]
    rw [parentsOk_append, Bool.and_eq_true]
    refine ⟨HL4 [], ?_⟩
    refine parentsOk_mono _ [(optimalBST p q n).root 1 n] _ ?_ (HR4 [])
    intro x hx
    rw [List.mem_singleton.1 hx]
    exact List.mem_append_right _ (List.mem_cons_self _ _)

theorem obst_report_complete_witness :
    1 ≤ 5 ∧
    ((keyIndexList (reportStructure (optimalBST p5 q5 5).root 5)).Perm
      (List.range' 1 5) ∧
    (gapIndexList (reportStructure (optimalBST p5 q5 5).root 5)).Perm
      (List.range' 0 (5 + 1)) ∧
    (reportStructure (optimalBST p5 q5 5).root 5).head? =
      some (SFact.rootF ((optimalBST p5 q5 5).root 1 5)) ∧
    List.countP isRootFact (reportStructure (optimalBST p5 q5 5).root 5) = 1 ∧
    parentsOk (reportStructure (optimalBST p5 q5 5).root 5) [] = true) :=
  ⟨by decide, obst_report_complete p5 q5 5 (by decide)⟩

theorem optionFoldlM_isSome {α β : Type} (g : β → α → Option β) :
    ∀ (L : List α) (b : β), (∀ b' : β, ∀ a ∈ L, (g b' a).isSome = true) →
    (List.foldlM g b L).isSome = true := by
  intro L
  induction L with
  | nil => intro b _; rfl
  | cons a L ih =>
    intro b h
    have hga := h b a (List.mem_cons_self a L)
    cases hg : g b a with
    | none => rw [hg] at hga; exact absurd hga (by simp)
    | some b' =>
      have h2 : List.foldlM g b (a :: L) = List.foldlM g b' L := by
        rw [show List.foldlM g b (a :: L) = g b a >>= fun b2 => List.foldlM g b2 L
          from rfl, hg]
        rfl
      rw [h2]
      exact ih b' (fun b2 a2 ha2 => h b2 a2 (List.mem_cons_of_mem a ha2))

/-- C5 (amended): `optimalBST` performs no input validation whatsoever — it
runs to completion on every input whose accessed indices are in bounds
(`len(p) ≥ n+1`, `len(q) ≥ n+1`), negative probabilities included. -/
theorem obst_no_validation (p q : List ℚ) (n : ℕ)
    (hp : n + 1 ≤ p.length) (hq : n + 1 ≤ q.length) :
    (optimalBSTChecked p q n).isSome = true := by
  have hbase : (List.foldlM
      (fun (t : Tables) i => do
        let qi ← q.get? (i - 1)
        pure (⟨upd t.e i (i - 1) qi, upd t.w i (i - 1) qi, t.root⟩ : Tables))
      Tables.init (List.range' 1 (n + 1))).isSome = true := by
    apply optionFoldlM_isSome
    intro t i hi
    obtain ⟨hi1, hi2⟩ := mem_range'_iff.1 hi
    cases hqi : q.get? (i - 1) with
    | none =>
      rw [List.get?_eq_none] at hqi
      omega
    | some v => rfl
  cases hb : List.foldlM
      (fun (t : Tables) i => do
        let qi ← q.get? (i - 1)
        pure (⟨upd t.e i (i - 1) qi, upd t.w i (i - 1) qi, t.root⟩ : Tables))
      Tables.init (List.range' 1 (n + 1)) with
  | none => rw [hb] at hbase; exact absurd hbase (by simp)
  | some t1 =>
    have hrest : (List.foldlM
        (fun t l =>
          List.foldlM
            (fun (t : Tables) i => do
              let j := i + l - 1
              let pj ← p.get? j
              let qj ← q.get? j
              let wij := t.w i (j - 1) + pj + qj
              let s := innerScan t.e wij i j
              pure (⟨upd t.e i j s.1, upd t.w i j wij,
                upd t.root i j s.2⟩ : Tables))
            t (List.range' 1 (n + 1 - l)))
        t1 (List.range' 1 n)).isSome = true := by
      apply optionFoldlM_isSome
      intro t l hl
      obtain ⟨hl1, hl2⟩ := mem_range'_iff.1 hl
      apply optionFoldlM_isSome
      intro t' i hi
      obtain ⟨hi1, hi2⟩ := mem_range'_iff.1 hi
      dsimp only
      cases hpj : p.get? (i + l - 1) with
      | none =>
        rw [List.get?_eq_none] at hpj
        omega
      | some v =>
        cases hqj : q.get? (i + l - 1) with
        | none =>
          rw [List.get?_eq_none] at hqj
          omega
        | some v' => rfl
    show ((List.foldlM
        (fun (t : Tables) i => do
          let qi ← q.get? (i - 1)
          pure (⟨upd t.e i (i - 1) qi, upd t.w i (i - 1) qi, t.root⟩ : Tables))
        Tables.init (List.range' 1 (n + 1))) >>= fun t1 =>
        List.foldlM
          (fun t l =>
            List.foldlM
              (fun (t : Tables) i => do
                let j := i + l - 1
                let pj ← p.get? j
                let qj ← q.get? j
                let wij := t.w i (j - 1) + pj + qj
                let s := innerScan t.e wij i j
                pure (⟨upd t.e i j s.1, upd t.w i j wij,
                  upd t.root i j s.2⟩ : Tables))
              t (List.range' 1 (n + 1 - l)))
          t1 (List.range' 1 n)).isSome = true
    rw [hb]
    simpa using hrest

/-- C5 counterexample: the input `p = [0, -1/2]`, `q = [1/2, 1/2]`, `n = 1`
has the right lengths but contains a negative probability; the claim says
the builder must fail with `InvalidInput`, yet the computation runs to
completion — the source performs no validation at all. -/
theorem obst_no_validation_counterexample :
    ([(0 : ℚ), -1/2].get? 1 = some (-1/2) ∧ (-1/2 : ℚ) < 0) ∧
    (optimalBSTChecked [0, -1/2] [1/2, 1/2] 1).isSome = true :=
  ⟨⟨by decide, by decide⟩, by decide⟩

theorem obst_no_validation_witness :
    (1 + 1 ≤ ([(0 : ℚ), 1/2] : List ℚ).length ∧
      1 + 1 ≤ ([(1/4 : ℚ), 1/4] : List ℚ).length) ∧
    (optimalBSTChecked [0, 1/2] [1/4, 1/4] 1).isSome = true :=
  ⟨⟨by decide, by decide⟩,
    obst_no_validation [0, 1/2] [1/4, 1/4] 1 (by decide) (by decide)⟩
